import Mathlib

/-!
Verification of the evaluation-orchestration core of the `moviesite`
recommender-evaluation repository (`evaluator/evaluation_runner.py`),
as a shallow embedding in Lean 4.

Modelling conventions:
* A pandas `DataFrame` of rating observations is a `List Row` in frame
  order; the pandas row index (the observation identity used by
  `DataFrame.index.isin`) is the explicit `id` field of each row.
* `pd.DataFrame.from_records` on an empty record list produces a frame
  with no columns; column presence is tracked by `PDFrame.hasCols`,
  since `clean_data` performs the column selection
  `ratings[['user_id', 'movie_id']]`, which raises `KeyError` on a
  column-less frame.
* The external collaborators (the numpy shuffle, the `PrecisionAtK`
  ranking evaluator and the `MeanAverageError` evaluator) are taken as
  function parameters: the theorems quantify over their behaviour.
* `sort_values('rating_timestamp', ascending=False)` is modelled by
  insertion sort on the reversed timestamp order; the relative order of
  equal timestamps is unspecified in the design, so any sort by
  descending timestamp is a faithful model.
* Numeric metric values are modelled by `ℚ` (the code accumulates into
  `Decimal` for exact accumulation).
-/

namespace MovieSite

/-- One rating observation: the pandas row index `id` (its observation
identity), `user_id`, `movie_id`, the rating value and
`rating_timestamp`. -/
structure Row where
  id : Nat
  user_id : Nat
  movie_id : Nat
  rating : Int
  rating_timestamp : Int
deriving DecidableEq, Repr

/-- A rating DataFrame: the rows in frame order. -/
abbrev DF := List Row

/-- A pandas DataFrame together with whether it carries the rating
columns.  `pd.DataFrame.from_records` infers columns from the records,
so an empty record list yields a frame with no columns. -/
structure PDFrame where
  hasCols : Bool
  rows : DF
deriving DecidableEq

/-- `pd.DataFrame.from_records rows`: the columns exist exactly when
there is at least one record. -/
def PDFrame.fromRecords (rows : DF) : PDFrame :=
  ⟨!rows.isEmpty, rows⟩

/-- Number of observations of user `u` in a frame: the size of the
`groupby('user_id')` group of `u` (the `movie_id` column is never null,
so pandas `count` is the row count). -/
def countUser (l : DF) (u : Nat) : Nat :=
  (l.filter (fun r => r.user_id == u)).length

/-- Deduplication keeping the first occurrence, as
`pandas.Series.unique` does. -/
def firstDedup : List Nat → List Nat
  | [] => []
  | a :: l => a :: (firstDedup l).filter (fun b => b ≠ a)

/-- `ratings.user_id.unique()`: the distinct user ids in order of first
appearance. -/
def uniqueUsers (rows : DF) : List Nat :=
  firstDedup (rows.map (fun r => r.user_id))

/-- `ratings[['user_id','movie_id']].groupby('user_id').count().reset_index()`:
one `(user_id, count)` pair per distinct user. -/
def groupCounts (rows : DF) : List (Nat × Nat) :=
  (uniqueUsers rows).map (fun u => (u, countUser rows u))

/-- The observation-level meaning of `clean_data`: keep exactly the rows
whose user has strictly more than `min_ratings` observations. -/
def cleanRows (rows : DF) (min_ratings : Nat) : DF :=
  rows.filter (fun r => min_ratings < countUser rows r.user_id)

/-- `EvaluationRunner.clean_data` (evaluation_runner.py lines 49-62):
select the `user_id`/`movie_id` columns (KeyError when the frame has no
columns), count rows per user, keep the users whose count is strictly
greater than `min_ratings`, and filter the frame to those users. -/
def clean_data (ratings : PDFrame) (min_ratings : Nat) : Except String PDFrame :=
  if ratings.hasCols then
    let user_count := groupCounts ratings.rows
    let user_ids := (user_count.filter (fun p => min_ratings < p.2)).map (fun p => p.1)
    .ok ⟨ratings.hasCols, ratings.rows.filter (fun r => r.user_id ∈ user_ids)⟩
  else
    .error "KeyError"

/-- The ordering used by
`sort_values('rating_timestamp', ascending=False)`: `a` precedes `b`
when `a`'s timestamp is at least `b`'s. -/
def tsGE (a b : Row) : Prop :=
  b.rating_timestamp ≤ a.rating_timestamp

instance : DecidableRel tsGE := fun a b =>
  inferInstanceAs (Decidable (b.rating_timestamp ≤ a.rating_timestamp))

instance : IsTotal Row tsGE :=
  ⟨fun a b => (le_total b.rating_timestamp a.rating_timestamp).imp id id⟩

instance : IsTrans Row tsGE :=
  ⟨fun _ _ _ h1 h2 => le_trans h2 h1⟩

/-- `ratings.sort_values('rating_timestamp', ascending=False)`. -/
def sortDesc (l : DF) : DF :=
  List.insertionSort tsGE l

/-- Helper for `groupby('user_id').head(n)`: walk the frame keeping a
row when fewer than `n` rows of the same user occurred before it
(`seen` is the already-walked prefix). -/
def headPerUserAux (n : Nat) : DF → DF → DF
  | _, [] => []
  | seen, r :: rs =>
    if countUser seen r.user_id < n then
      r :: headPerUserAux n (seen ++ [r]) rs
    else
      headPerUserAux n (seen ++ [r]) rs

/-- `df.groupby('user_id').head(n)`: the first `n` rows of each user
group, in frame order. -/
def headPerUser (n : Nat) (l : DF) : DF :=
  headPerUserAux n [] l

/-- `EvaluationRunner.split_data` (evaluation_runner.py lines 168-181):
base training rows of train-cohort users; test pool of test-cohort
users sorted by timestamp descending; test set is the per-user head of
`min_rank` rows; pool rows whose index is not in the test set's index
go back to training.  Returns `(test, train)`. -/
def split_data (min_rank : Nat) (ratings : DF) (test_users train_users : List Nat) :
    DF × DF :=
  let train := ratings.filter (fun r => decide (r.user_id ∈ train_users))
  let test_temp := sortDesc (ratings.filter (fun r => decide (r.user_id ∈ test_users)))
  let test := headPerUser min_rank test_temp
  let additional_training_data :=
    test_temp.filter (fun r => !(test.map (fun t => t.id)).contains r.id)
  (test, train ++ additional_training_data)

/-- The per-run result record: the `users` key is present only in the
single-pass (no-cross-validation) mode. -/
structure EvalResult where
  map : ℚ
  ar : ℚ
  mae : ℚ
  users : Option Nat
deriving DecidableEq

/-- The 70/30 user partition of the single-pass mode
(evaluation_runner.py lines 95-100): `train_data_len` is 70% of the
distinct-user count (integer-truncated), the user array is shuffled in
place with the fixed seed 42, the first `train_data_len` users are the
train cohort and the rest the test cohort.  `shuffle` abstracts
`np.random.seed` followed by `np.random.shuffle`. -/
def singlePassPartition (shuffle : Nat → List Nat → List Nat) (ratings : DF) :
    List Nat × List Nat :=
  let users0 := uniqueUsers ratings
  let train_data_len := users0.length * 70 / 100
  let users := shuffle 42 users0
  (users.take train_data_len, users.drop train_data_len)

/-- `EvaluationRunner.calculate_using_ratings_no_crossvalidation`
(evaluation_runner.py lines 92-122): clean, partition the users 70/30
after a seeded shuffle, split, score with the ranking evaluator `pak`
(abstracting `PrecisionAtK(...).calculate_mean_average_precision`),
fix `mae = 0`, and report `len(users)` (the shuffled array's length)
as the user count.  The external builder only mutates collaborator
state and does not affect the returned record. -/
def calculate_using_ratings_no_crossvalidation (pak : DF → DF → ℚ × ℚ)
    (shuffle : Nat → List Nat → List Nat) (all_ratings : PDFrame)
    (min_number_of_ratings min_rank : Nat) : Except String EvalResult := do
  let ratings ← clean_data all_ratings min_number_of_ratings
  let users0 := uniqueUsers ratings.rows
  let train_data_len := users0.length * 70 / 100
  let users := shuffle 42 users0
  let train_users := users.take train_data_len
  let test_users := users.drop train_data_len
  let td := split_data min_rank ratings.rows test_users train_users
  let mapar := pak td.2 td.1
  .ok ⟨mapar.1, mapar.2, 0, some users.length⟩

/-- One k-fold test block: `sklearn.model_selection.KFold(n_splits=k)`
on `n` samples gives the first `n % k` folds `n / k + 1` consecutive
indices and the remaining folds `n / k`. -/
def kfoldTestFold (k n i : Nat) : List Nat :=
  let base := n / k
  let rem := n % k
  let start := i * base + min i rem
  let len := base + (if i < rem then 1 else 0)
  (List.range len).map (fun j => start + j)

/-- `KFold(n_splits=k).split(X)`: the `(train_indices, test_indices)`
pairs, the train indices being the complement of the test block. -/
def kfoldSplits (k n : Nat) : List (List Nat × List Nat) :=
  (List.range k).map (fun i =>
    ((List.range n).filter (fun x => !(kfoldTestFold k n i).contains x),
     kfoldTestFold k n i))

/-- `EvaluationRunner.split_users` (evaluation_runner.py lines 164-166)
together with the generator consumption `kf.split(users)`:
`KFold.__init__` raises for `n_splits <= 1` and `split` raises when
`n_splits` exceeds the number of samples. -/
def split_users (folds nSamples : Nat) : Except String (List (List Nat × List Nat)) :=
  if folds ≤ 1 then
    .error "ValueError: k-fold cross-validation requires at least one train/test split"
  else if nSamples < folds then
    .error "ValueError: Cannot have number of splits greater than the number of samples"
  else
    .ok (kfoldSplits folds nSamples)

/-- `users[idx]` on a numpy array: numpy fancy indexing by a list of
positions. -/
def indexSelect (users : List Nat) (idx : List Nat) : List Nat :=
  idx.filterMap (fun i => users[i]?)

/-- The per-fold metric triples `(map_f, ar_f, mae_f)` produced inside
the cross-validation loop: each fold's data goes through `split_data`
and is scored by the ranking evaluator `pak` and the error evaluator
`maeEval` on `(train_data, test_data)`. -/
def cvFoldMetrics (pak : DF → DF → ℚ × ℚ) (maeEval : DF → DF → ℚ)
    (ratings : DF) (users : List Nat) (min_rank : Nat)
    (splits : List (List Nat × List Nat)) : List (ℚ × ℚ × ℚ) :=
  splits.map (fun s =>
    let td := split_data min_rank ratings (indexSelect users s.2) (indexSelect users s.1)
    let mapar := pak td.2 td.1
    (mapar.1, mapar.2, maeEval td.2 td.1))

/-- The fold loop of `calculate_using_ratings` (evaluation_runner.py
lines 136-159): accumulate `maps`, `ars`, `maes` and rebuild the
`results` dict, divided by `self.folds`, after every fold; `none`
models the `results` variable being still unbound after a loop with no
iterations. -/
def cvLoopAux (folds : ℚ) : ℚ → ℚ → ℚ → Option EvalResult →
    List (ℚ × ℚ × ℚ) → Option EvalResult
  | _, _, _, res, [] => res
  | maps, ars, maes, _, m :: rest =>
    let maps2 := maps + m.1
    let ars2 := ars + m.2.1
    let maes2 := maes + m.2.2
    cvLoopAux folds maps2 ars2 maes2
      (some ⟨maps2 / folds, ars2 / folds, maes2 / folds, none⟩) rest

/-- `EvaluationRunner.calculate_using_ratings` (evaluation_runner.py
lines 124-162): clean, build the k-fold user splits, run the fold loop
and return the last `results` dict (a `NameError` when the loop body
never ran). -/
def calculate_using_ratings (pak : DF → DF → ℚ × ℚ) (maeEval : DF → DF → ℚ)
    (all_ratings : PDFrame) (min_number_of_ratings min_rank folds : Nat) :
    Except String EvalResult := do
  let ratings ← clean_data all_ratings min_number_of_ratings
  let users := uniqueUsers ratings.rows
  let splits ← split_users folds users.length
  let ms := cvFoldMetrics pak maeEval ratings.rows users min_rank splits
  match cvLoopAux (folds : ℚ) 0 0 0 none ms with
  | none => .error "NameError: name results is not defined"
  | some r => .ok r

/-- `EvaluationRunner.calculate` (evaluation_runner.py lines 64-90)
after the ratings have been materialized from the store: dispatch on
`folds == 0` between the single-pass and the cross-validation mode.
No parameter validation of any kind is performed (neither here nor in
`__init__`). -/
def calculate (pak : DF → DF → ℚ × ℚ) (maeEval : DF → DF → ℚ)
    (shuffle : Nat → List Nat → List Nat) (folds : Nat)
    (all_ratings : PDFrame) (min_number_of_ratings min_rank : Nat) :
    Except String EvalResult :=
  if folds = 0 then
    calculate_using_ratings_no_crossvalidation pak shuffle all_ratings
      min_number_of_ratings min_rank
  else
    calculate_using_ratings pak maeEval all_ratings
      min_number_of_ratings min_rank folds

/-! ### Basic lemmas about the data-frame primitives -/

theorem countUser_nil (u : Nat) : countUser [] u = 0 := rfl

theorem countUser_cons (r : Row) (l : DF) (u : Nat) :
    countUser (r :: l) u =
      (if r.user_id = u then 1 else 0) + countUser l u := by
  simp only [countUser, List.filter_cons]
  by_cases h : r.user_id = u
  · simp [h, Nat.add_comm]
  · simp [h]

theorem countUser_append (l1 l2 : DF) (u : Nat) :
    countUser (l1 ++ l2) u = countUser l1 u + countUser l2 u := by
  simp [countUser, List.filter_append]

theorem countUser_append_singleton (l : DF) (r : Row) (u : Nat) :
    countUser (l ++ [r]) u =
      countUser l u + (if r.user_id = u then 1 else 0) := by
  rw [countUser_append, countUser_cons, countUser_nil]
  omega

theorem mem_firstDedup {a : Nat} : ∀ {l : List Nat}, a ∈ firstDedup l ↔ a ∈ l
  | [] => Iff.rfl
  | b :: l => by
    simp only [firstDedup, List.mem_cons, List.mem_filter]
    constructor
    · rintro (rfl | ⟨h, _⟩)
      · exact Or.inl rfl
      · exact Or.inr (mem_firstDedup.mp h)
    · rintro (rfl | h)
      · exact Or.inl rfl
      · by_cases hab : a = b
        · exact Or.inl hab
        · exact Or.inr ⟨mem_firstDedup.mpr h, by simpa using hab⟩

theorem mem_uniqueUsers {u : Nat} {rows : DF} :
    u ∈ uniqueUsers rows ↔ ∃ r ∈ rows, r.user_id = u := by
  simp [uniqueUsers, mem_firstDedup, List.mem_map, eq_comm]

/-- Membership in the cleaned observation pool: exactly the rows whose
user has strictly more than `min_ratings` observations. -/
theorem mem_cleanRows {r : Row} {rows : DF} {m : Nat} :
    r ∈ cleanRows rows m ↔ r ∈ rows ∧ m < countUser rows r.user_id := by
  simp [cleanRows, List.mem_filter]

/-- On a frame that carries the rating columns, `clean_data` succeeds
and computes exactly the `cleanRows` filter. -/
theorem clean_data_ok (rows : DF) (m : Nat) :
    clean_data ⟨true, rows⟩ m = .ok ⟨true, cleanRows rows m⟩ := by
  have hs : clean_data ⟨true, rows⟩ m =
      .ok ⟨true, rows.filter (fun r => decide (r.user_id ∈ ((groupCounts rows).filter
        (fun p => decide (m < p.2))).map (fun p => p.1)))⟩ := rfl
  rw [hs, cleanRows]
  congr 1
  congr 1
  apply List.filter_congr
  intro r hr
  have hmem : r.user_id ∈ ((groupCounts rows).filter
      (fun p => decide (m < p.2))).map (fun p => p.1) ↔ m < countUser rows r.user_id := by
    constructor
    · intro hu
      obtain ⟨p, hp, hp1⟩ := List.mem_map.mp hu
      obtain ⟨hpg, hpc⟩ := List.mem_filter.mp hp
      obtain ⟨w, hw, hwe⟩ := List.mem_map.mp hpg
      cases hwe
      cases hp1
      exact of_decide_eq_true hpc
    · intro h
      refine List.mem_map.mpr ⟨(r.user_id, countUser rows r.user_id), ?_, rfl⟩
      refine List.mem_filter.mpr ⟨?_, by simpa using h⟩
      exact List.mem_map.mpr ⟨r.user_id, mem_uniqueUsers.mpr ⟨r, hr, rfl⟩, rfl⟩
  simp [hmem]

/-- `clean_data` on a frame with columns never loses the columns. -/
theorem clean_data_fromRecords (rows : DF) (m : Nat) (h : rows ≠ []) :
    clean_data (PDFrame.fromRecords rows) m = .ok ⟨true, cleanRows rows m⟩ := by
  have : PDFrame.fromRecords rows = ⟨true, rows⟩ := by
    simp [PDFrame.fromRecords, List.isEmpty_iff, h]
  rw [this, clean_data_ok]

/-! ### Lemmas about the descending-timestamp sort -/

theorem perm_sortDesc (l : DF) : (sortDesc l).Perm l :=
  List.perm_insertionSort tsGE l

theorem mem_sortDesc {r : Row} {l : DF} : r ∈ sortDesc l ↔ r ∈ l :=
  (perm_sortDesc l).mem_iff

theorem sorted_sortDesc (l : DF) : List.Pairwise tsGE (sortDesc l) :=
  List.sorted_insertionSort tsGE l

theorem countUser_sortDesc (l : DF) (u : Nat) :
    countUser (sortDesc l) u = countUser l u := by
  have h := (perm_sortDesc l).countP_eq (fun r => r.user_id == u)
  rw [List.countP_eq_length_filter, List.countP_eq_length_filter] at h
  exact h

/-! ### Lemmas about `groupby('user_id').head(n)` -/

/-- Every row kept by the per-user head comes from the input frame. -/
theorem headPerUserAux_subset {n : Nat} {r : Row} :
    ∀ {l seen : DF}, r ∈ headPerUserAux n seen l → r ∈ l := by
  intro l
  induction l with
  | nil => intro seen h; exact absurd h (by simp [headPerUserAux])
  | cons x xs ih =>
    intro seen h
    rw [headPerUserAux] at h
    by_cases hc : countUser seen x.user_id < n
    · rw [if_pos hc] at h
      rcases List.mem_cons.mp h with h1 | h1
      · exact List.mem_cons.mpr (Or.inl h1)
      · exact List.mem_cons.mpr (Or.inr (ih h1))
    · rw [if_neg hc] at h
      exact List.mem_cons.mpr (Or.inr (ih h))

/-- Once `n` rows of a user have been walked past, no later row of that
user is kept. -/
theorem headPerUserAux_blocked {n u : Nat} :
    ∀ {l seen : DF}, n ≤ countUser seen u →
      ∀ r ∈ headPerUserAux n seen l, r.user_id ≠ u := by
  intro l
  induction l with
  | nil => intro seen _ r hr; exact absurd hr (by simp [headPerUserAux])
  | cons x xs ih =>
    intro seen hn r hr
    have hseen2 : n ≤ countUser (seen ++ [x]) u := by
      rw [countUser_append_singleton]; omega
    rw [headPerUserAux] at hr
    by_cases hc : countUser seen x.user_id < n
    · rw [if_pos hc] at hr
      rcases List.mem_cons.mp hr with h1 | h1
      · subst h1
        intro hru
        rw [hru] at hc
        omega
      · exact ih hseen2 r h1
    · rw [if_neg hc] at hr
      exact ih hseen2 r hr

/-- The per-user head keeps `min n (count)` rows of each user: at most
`n`, and all of them when the user has fewer than `n`. -/
theorem headPerUserAux_count (n u : Nat) :
    ∀ (l seen : DF), countUser (headPerUserAux n seen l) u =
      min n (countUser seen u + countUser l u) - countUser seen u := by
  intro l
  induction l with
  | nil =>
    intro seen
    simp only [headPerUserAux, countUser_nil]
    omega
  | cons x xs ih =>
    intro seen
    rw [headPerUserAux, countUser_cons]
    by_cases hc : countUser seen x.user_id < n
    · rw [if_pos hc, countUser_cons, ih (seen ++ [x]), countUser_append_singleton]
      by_cases hxu : x.user_id = u
      · rw [if_pos hxu]
        rw [hxu] at hc
        omega
      · rw [if_neg hxu]
        omega
    · rw [if_neg hc, ih (seen ++ [x]), countUser_append_singleton]
      by_cases hxu : x.user_id = u
      · rw [if_pos hxu]
        rw [hxu] at hc
        omega
      · rw [if_neg hxu]
        omega

/-- In a frame sorted by descending timestamp, every row of a user that
the per-user head drops has a timestamp at most that of every kept row
of the same user. -/
theorem headPerUserAux_order {n : Nat} :
    ∀ {l seen : DF}, List.Pairwise tsGE l →
      ∀ r1 ∈ l, r1 ∉ headPerUserAux n seen l →
        ∀ r2 ∈ headPerUserAux n seen l, r2.user_id = r1.user_id →
          r1.rating_timestamp ≤ r2.rating_timestamp := by
  intro l
  induction l with
  | nil => intro seen _ r1 h1; exact absurd h1 (by simp)
  | cons x xs ih =>
    intro seen hp r1 h1 hno r2 h2 huser
    obtain ⟨hx, hptail⟩ := List.pairwise_cons.mp hp
    rw [headPerUserAux] at hno h2
    by_cases hc : countUser seen x.user_id < n
    · rw [if_pos hc] at hno h2
      have h1x : r1 ≠ x := by
        intro he
        exact hno (by rw [he]; exact List.mem_cons_self x _)
      have h1xs : r1 ∈ xs := by
        rcases List.mem_cons.mp h1 with h | h
        · exact absurd h h1x
        · exact h
      have h1no : r1 ∉ headPerUserAux n (seen ++ [x]) xs := fun h =>
        hno (List.mem_cons.mpr (Or.inr h))
      rcases List.mem_cons.mp h2 with h2x | h2tail
      · subst h2x
        exact hx r1 h1xs
      · exact ih hptail r1 h1xs h1no r2 h2tail huser
    · rw [if_neg hc] at hno h2
      rcases List.mem_cons.mp h1 with h1x | h1xs
      · subst h1x
        exfalso
        have hblock : n ≤ countUser (seen ++ [r1]) r1.user_id := by
          rw [countUser_append_singleton, if_pos rfl]
          omega
        exact headPerUserAux_blocked hblock r2 h2 huser
      · exact ih hptail r1 h1xs hno r2 h2 huser

theorem headPerUser_subset {n : Nat} {r : Row} {l : DF}
    (h : r ∈ headPerUser n l) : r ∈ l :=
  headPerUserAux_subset h

/-- `head(n)` keeps exactly `min n (group size)` rows of each group. -/
theorem headPerUser_count (n u : Nat) (l : DF) :
    countUser (headPerUser n l) u = min n (countUser l u) := by
  have h := headPerUserAux_count n u l []
  rw [headPerUser, h, countUser_nil]
  omega

theorem headPerUser_order {n : Nat} {l : DF} (hp : List.Pairwise tsGE l)
    {r1 : Row} (h1 : r1 ∈ l) (hno : r1 ∉ headPerUser n l)
    {r2 : Row} (h2 : r2 ∈ headPerUser n l) (huser : r2.user_id = r1.user_id) :
    r1.rating_timestamp ≤ r2.rating_timestamp :=
  headPerUserAux_order hp r1 h1 hno r2 h2 huser

/-! ### Membership structure of `split_data` -/

/-- The candidate test pool: the input rows of test-cohort users. -/
def testPool (ratings : DF) (test_users : List Nat) : DF :=
  ratings.filter (fun r => decide (r.user_id ∈ test_users))

theorem split_data_test_eq (min_rank : Nat) (ratings : DF)
    (test_users train_users : List Nat) :
    (split_data min_rank ratings test_users train_users).1 =
      headPerUser min_rank (sortDesc (testPool ratings test_users)) := rfl

theorem split_data_train_eq (min_rank : Nat) (ratings : DF)
    (test_users train_users : List Nat) :
    (split_data min_rank ratings test_users train_users).2 =
      ratings.filter (fun r => decide (r.user_id ∈ train_users)) ++
        (sortDesc (testPool ratings test_users)).filter (fun r =>
          !((headPerUser min_rank (sortDesc (testPool ratings test_users))).map
            (fun t => t.id)).contains r.id) := rfl

theorem mem_testPool {r : Row} {ratings : DF} {test_users : List Nat} :
    r ∈ testPool ratings test_users ↔ r ∈ ratings ∧ r.user_id ∈ test_users := by
  simp [testPool, List.mem_filter]

/-- Every test-set row is an input row of a test-cohort user. -/
theorem mem_split_test {min_rank : Nat} {ratings : DF}
    {test_users train_users : List Nat} {r : Row}
    (h : r ∈ (split_data min_rank ratings test_users train_users).1) :
    r ∈ ratings ∧ r.user_id ∈ test_users := by
  rw [split_data_test_eq] at h
  exact mem_testPool.mp (mem_sortDesc.mp (headPerUser_subset h))

/-- Characterization of the training set: the base rows of
train-cohort users, plus the pool rows whose index is not among the
test-set indices. -/
theorem mem_split_train {min_rank : Nat} {ratings : DF}
    {test_users train_users : List Nat} {r : Row} :
    r ∈ (split_data min_rank ratings test_users train_users).2 ↔
      (r ∈ ratings ∧ r.user_id ∈ train_users) ∨
      (r ∈ ratings ∧ r.user_id ∈ test_users ∧
        r.id ∉ ((split_data min_rank ratings test_users train_users).1).map
          (fun t => t.id)) := by
  rw [split_data_train_eq, List.mem_append]
  constructor
  · rintro (h | h)
    · exact Or.inl (by simpa [List.mem_filter] using h)
    · obtain ⟨hmem, hid⟩ := List.mem_filter.mp h
      obtain ⟨hr, hu⟩ := mem_testPool.mp (mem_sortDesc.mp hmem)
      refine Or.inr ⟨hr, hu, ?_⟩
      rw [split_data_test_eq]
      simpa using hid
  · rintro (⟨hr, hu⟩ | ⟨hr, hu, hid⟩)
    · exact Or.inl (by simp [List.mem_filter, hr, hu])
    · refine Or.inr (List.mem_filter.mpr ⟨?_, ?_⟩)
      · exact mem_sortDesc.mpr (mem_testPool.mpr ⟨hr, hu⟩)
      · rw [split_data_test_eq] at hid
        simpa using hid

/-- Rows with equal pandas indices are the same row when the frame's
index has no duplicates. -/
theorem id_inj {ratings : DF} (hnd : (ratings.map (fun r => r.id)).Nodup)
    {r1 r2 : Row} (h1 : r1 ∈ ratings) (h2 : r2 ∈ ratings)
    (hid : r1.id = r2.id) : r1 = r2 :=
  List.inj_on_of_nodup_map hnd h1 h2 hid

/-- Core disjointness: with disjoint user cohorts and a duplicate-free
index, no index is in both the test and the train set. -/
theorem split_data_disjoint_ids {min_rank : Nat} {ratings : DF}
    {test_users train_users : List Nat}
    (hdisj : ∀ u, u ∈ test_users → u ∉ train_users)
    (hnd : (ratings.map (fun r => r.id)).Nodup) :
    ∀ i, i ∈ ((split_data min_rank ratings test_users train_users).1).map
        (fun t => t.id) →
      i ∉ ((split_data min_rank ratings test_users train_users).2).map
        (fun t => t.id) := by
  intro i hte htr
  obtain ⟨r1, h1, rfl⟩ := List.mem_map.mp hte
  obtain ⟨r2, h2, hid⟩ := List.mem_map.mp htr
  obtain ⟨h1r, h1u⟩ := mem_split_test h1
  rcases mem_split_train.mp h2 with ⟨h2r, h2u⟩ | ⟨h2r, h2u, h2id⟩
  · have : r1 = r2 := id_inj hnd h1r h2r hid.symm
    subst this
    exact hdisj r1.user_id h1u h2u
  · exact h2id (hid ▸ List.mem_map.mpr ⟨r1, h1, rfl⟩)

/-- Core completeness: an index is in the test or train set exactly
when some input row carries it and belongs to one of the two cohorts
(no cohort-disjointness or index hypothesis is needed). -/
theorem split_data_union_ids (min_rank : Nat) (ratings : DF)
    (test_users train_users : List Nat) :
    ∀ i, (i ∈ ((split_data min_rank ratings test_users train_users).1).map
        (fun t => t.id) ∨
      i ∈ ((split_data min_rank ratings test_users train_users).2).map
        (fun t => t.id)) ↔
      ∃ r ∈ ratings, r.id = i ∧
        (r.user_id ∈ test_users ∨ r.user_id ∈ train_users) := by
  intro i
  constructor
  · rintro (h | h)
    · obtain ⟨r, hr, rfl⟩ := List.mem_map.mp h
      obtain ⟨hrr, hru⟩ := mem_split_test hr
      exact ⟨r, hrr, rfl, Or.inl hru⟩
    · obtain ⟨r, hr, rfl⟩ := List.mem_map.mp h
      rcases mem_split_train.mp hr with ⟨hrr, hru⟩ | ⟨hrr, hru, _⟩
      · exact ⟨r, hrr, rfl, Or.inr hru⟩
      · exact ⟨r, hrr, rfl, Or.inl hru⟩
  · rintro ⟨r, hr, rfl, hu | hu⟩
    · by_cases hid : r.id ∈ ((split_data min_rank ratings test_users
          train_users).1).map (fun t => t.id)
      · exact Or.inl hid
      · refine Or.inr (List.mem_map.mpr ⟨r, ?_, rfl⟩)
        exact mem_split_train.mpr (Or.inr ⟨hr, hu, hid⟩)
    · refine Or.inr (List.mem_map.mpr ⟨r, ?_, rfl⟩)
      exact mem_split_train.mpr (Or.inl ⟨hr, hu⟩)

/-! ### Idempotence of cleaning -/

/-- Cleaning keeps every observation of a surviving user, so the
surviving users keep their full observation counts. -/
theorem countUser_cleanRows {rows : DF} {m u : Nat}
    (h : m < countUser rows u) :
    countUser (cleanRows rows m) u = countUser rows u := by
  rw [countUser, cleanRows, List.filter_filter, countUser]
  apply congrArg
  apply List.filter_congr
  intro r _
  by_cases hru : r.user_id = u
  · have hm : m < countUser rows r.user_id := by rw [hru]; exact h
    simp [hru, hm, h]
  · simp [hru]

/-- The `cleanRows` filter is idempotent. -/
theorem cleanRows_idem (rows : DF) (m : Nat) :
    cleanRows (cleanRows rows m) m = cleanRows rows m := by
  have h : ∀ r ∈ cleanRows rows m,
      (decide (m < countUser (cleanRows rows m) r.user_id)) = true := by
    intro r hr
    obtain ⟨_, hcount⟩ := mem_cleanRows.mp hr
    rw [decide_eq_true_iff, countUser_cleanRows hcount]
    exact hcount
  calc cleanRows (cleanRows rows m) m
      = (cleanRows rows m).filter
          (fun r => decide (m < countUser (cleanRows rows m) r.user_id)) := rfl
    _ = cleanRows rows m := List.filter_eq_self.mpr h

/-! ### The cross-validation fold loop -/

/-- Closed form of the fold loop: with at least one fold, the returned
record is the running sums divided by the configured fold count. -/
theorem cvLoopAux_eq (f : ℚ) :
    ∀ (ms : List (ℚ × ℚ × ℚ)) (maps ars maes : ℚ) (res : Option EvalResult),
      ms ≠ [] →
      cvLoopAux f maps ars maes res ms =
        some ⟨(maps + (ms.map (fun m => m.1)).sum) / f,
              (ars + (ms.map (fun m => m.2.1)).sum) / f,
              (maes + (ms.map (fun m => m.2.2)).sum) / f, none⟩ := by
  intro ms
  induction ms with
  | nil => intro _ _ _ _ h; exact absurd rfl h
  | cons x rest ih =>
    intro maps ars maes res _
    rw [cvLoopAux]
    rcases rest with _ | ⟨y, rest2⟩
    · rw [cvLoopAux]
      simp
    · rw [ih _ _ _ _ (by simp)]
      simp only [List.map_cons, List.sum_cons]
      congr 1
      congr 1 <;> ring_nf

theorem kfoldSplits_length (k n : Nat) : (kfoldSplits k n).length = k := by
  simp [kfoldSplits]

/-- The `Except` monad bind on a success is function application. -/
theorem ebind_ok {α β : Type} (a : α) (f : α → Except String β) :
    (Except.ok (ε := String) a >>= f) = f a := rfl

/-- The cross-validation mode, on a well-formed frame with at least two
folds and at least as many surviving users as folds, returns exactly
the per-fold metric sums divided once by the fold count. -/
theorem calculate_using_ratings_mean (pak : DF → DF → ℚ × ℚ)
    (maeEval : DF → DF → ℚ) (rows : DF) (m mr F : Nat)
    (hF : 2 ≤ F)
    (hn : F ≤ (uniqueUsers (cleanRows rows m)).length) :
    calculate_using_ratings pak maeEval ⟨true, rows⟩ m mr F =
      .ok ⟨((cvFoldMetrics pak maeEval (cleanRows rows m)
              (uniqueUsers (cleanRows rows m)) mr
              (kfoldSplits F (uniqueUsers (cleanRows rows m)).length)).map
              (fun x => x.1)).sum / (F : ℚ),
           ((cvFoldMetrics pak maeEval (cleanRows rows m)
              (uniqueUsers (cleanRows rows m)) mr
              (kfoldSplits F (uniqueUsers (cleanRows rows m)).length)).map
              (fun x => x.2.1)).sum / (F : ℚ),
           ((cvFoldMetrics pak maeEval (cleanRows rows m)
              (uniqueUsers (cleanRows rows m)) mr
              (kfoldSplits F (uniqueUsers (cleanRows rows m)).length)).map
              (fun x => x.2.2)).sum / (F : ℚ), none⟩ := by
  rw [calculate_using_ratings, clean_data_ok, ebind_ok]
  dsimp only
  have hsu : split_users F (uniqueUsers (cleanRows rows m)).length =
      .ok (kfoldSplits F (uniqueUsers (cleanRows rows m)).length) := by
    rw [split_users, if_neg (by omega), if_neg (by omega)]
  rw [hsu, ebind_ok]
  have hne : cvFoldMetrics pak maeEval (cleanRows rows m)
      (uniqueUsers (cleanRows rows m)) mr
      (kfoldSplits F (uniqueUsers (cleanRows rows m)).length) ≠ [] := by
    intro h
    have := congrArg List.length h
    simp only [cvFoldMetrics, List.length_map, kfoldSplits_length,
      List.length_nil] at this
    omega
  rw [cvLoopAux_eq (F : ℚ) _ 0 0 0 none hne]
  simp

/-! ### Concrete inputs and stub collaborators used by witnesses and
counterexamples -/

/-- The spec's literal split example: three observations of user 1 at
timestamps 1, 2 and 3. -/
def exSplitRatings : DF :=
  [⟨0, 1, 1, 0, 1⟩, ⟨1, 1, 2, 0, 2⟩, ⟨2, 1, 3, 0, 3⟩]

/-- Three users with one observation each. -/
def exCV3 : DF :=
  [⟨0, 1, 10, 0, 1⟩, ⟨1, 2, 20, 0, 2⟩, ⟨2, 3, 30, 0, 3⟩]

/-- Two users with two observations each. -/
def exTwoUsers : DF :=
  [⟨0, 1, 10, 0, 1⟩, ⟨1, 1, 20, 0, 2⟩, ⟨2, 2, 30, 0, 3⟩, ⟨3, 2, 40, 0, 4⟩]

/-- User 1 has exactly two observations, user 2 exactly three. -/
def exThresh : DF :=
  [⟨0, 1, 1, 0, 1⟩, ⟨1, 1, 2, 0, 2⟩, ⟨2, 2, 1, 0, 3⟩, ⟨3, 2, 2, 0, 4⟩,
   ⟨4, 2, 3, 0, 5⟩]

/-- A ranking evaluator stub returning zero metrics. -/
def pakZero : DF → DF → ℚ × ℚ := fun _ _ => (0, 0)

/-- An error evaluator stub returning zero. -/
def maeZero : DF → DF → ℚ := fun _ _ => 0

/-- A shuffle stub that leaves the user list unchanged (a legitimate
permutation). -/
def shuffleId : Nat → List Nat → List Nat := fun _ l => l

/-- A ranking evaluator stub whose value is the sum of the test-set
user ids, giving distinguishable per-fold values. -/
def pakUserSum : DF → DF → ℚ × ℚ := fun _ te =>
  ((((te.map (fun r => r.user_id)).sum : ℕ) : ℚ),
   (((te.map (fun r => r.user_id)).sum : ℕ) : ℚ))

/-- An error evaluator stub whose value is the sum of the test-set
user ids. -/
def maeUserSum : DF → DF → ℚ := fun _ te =>
  (((te.map (fun r => r.user_id)).sum : ℕ) : ℚ)

/-! ### The claims -/

/-- C1 (counterexample): as stated — over *every* pair of user cohorts —
split disjointness fails: with the overlapping cohorts
`test_users = train_users = [1]` and a single observation of user 1,
observation identity 0 appears in both the test and the train set. -/
theorem claim_C1_counterexample :
    0 ∈ ((split_data 1 [⟨0, 1, 1, 0, 5⟩] [1] [1]).1).map (fun t => t.id) ∧
    0 ∈ ((split_data 1 [⟨0, 1, 1, 0, 5⟩] [1] [1]).2).map (fun t => t.id) := by
  decide

/-- C1 (amended): for every ratings table whose observation identities
are duplicate-free and every pair of *disjoint* user cohorts, the
test_set and train_set returned by split_data are disjoint at the
observation-identity level: no observation appears in both sets. -/
theorem claim_C1 (min_rank : Nat) (ratings : DF)
    (test_users train_users : List Nat)
    (hdisj : ∀ u, u ∈ test_users → u ∉ train_users)
    (hnd : (ratings.map (fun r => r.id)).Nodup) :
    ∀ i, i ∈ ((split_data min_rank ratings test_users train_users).1).map
        (fun t => t.id) →
      i ∉ ((split_data min_rank ratings test_users train_users).2).map
        (fun t => t.id) :=
  split_data_disjoint_ids hdisj hnd

theorem claim_C1_witness :
    3 ∉ ((split_data 1 [⟨3, 1, 1, 0, 5⟩, ⟨7, 2, 2, 0, 6⟩] [1] [2]).2).map
      (fun t => t.id) :=
  claim_C1 1 [⟨3, 1, 1, 0, 5⟩, ⟨7, 2, 2, 0, 6⟩] [1] [2]
    (by decide) (by decide) 3 (by decide)

/-- C2 (counterexample): as stated — over every pair of cohorts — the
"exactly one of the two sets" part fails: with the overlapping cohorts
`test_users = train_users = [1]`, observation identity 1 ends up in
both sets. -/
theorem claim_C2_counterexample :
    1 ∈ ((split_data 1 [⟨0, 1, 1, 0, 1⟩, ⟨1, 1, 2, 0, 2⟩] [1] [1]).1).map
      (fun t => t.id) ∧
    1 ∈ ((split_data 1 [⟨0, 1, 1, 0, 1⟩, ⟨1, 1, 2, 0, 2⟩] [1] [1]).2).map
      (fun t => t.id) := by
  decide

/-- C2 (amended): for every ratings table with duplicate-free
observation identities and disjoint user cohorts, an identity is in
the union of test_set and train_set exactly when some input
observation carries it and belongs to a cohort user (nothing invented
or dropped), and no identity is in both sets. -/
theorem claim_C2 (min_rank : Nat) (ratings : DF)
    (test_users train_users : List Nat)
    (hdisj : ∀ u, u ∈ test_users → u ∉ train_users)
    (hnd : (ratings.map (fun r => r.id)).Nodup) :
    ∀ i, ((i ∈ ((split_data min_rank ratings test_users train_users).1).map
            (fun t => t.id) ∨
          i ∈ ((split_data min_rank ratings test_users train_users).2).map
            (fun t => t.id)) ↔
        ∃ r ∈ ratings, r.id = i ∧
          (r.user_id ∈ test_users ∨ r.user_id ∈ train_users)) ∧
      ¬(i ∈ ((split_data min_rank ratings test_users train_users).1).map
          (fun t => t.id) ∧
        i ∈ ((split_data min_rank ratings test_users train_users).2).map
          (fun t => t.id)) := by
  intro i
  refine ⟨split_data_union_ids min_rank ratings test_users train_users i, ?_⟩
  rintro ⟨h1, h2⟩
  exact split_data_disjoint_ids hdisj hnd i h1 h2

theorem claim_C2_witness :
    (3 ∈ ((split_data 1 [⟨3, 1, 1, 0, 5⟩, ⟨7, 2, 2, 0, 6⟩] [1] [2]).1).map
        (fun t => t.id) ∨
      3 ∈ ((split_data 1 [⟨3, 1, 1, 0, 5⟩, ⟨7, 2, 2, 0, 6⟩] [1] [2]).2).map
        (fun t => t.id)) ∧
    ¬(3 ∈ ((split_data 1 [⟨3, 1, 1, 0, 5⟩, ⟨7, 2, 2, 0, 6⟩] [1] [2]).1).map
        (fun t => t.id) ∧
      3 ∈ ((split_data 1 [⟨3, 1, 1, 0, 5⟩, ⟨7, 2, 2, 0, 6⟩] [1] [2]).2).map
        (fun t => t.id)) :=
  ⟨((claim_C2 1 [⟨3, 1, 1, 0, 5⟩, ⟨7, 2, 2, 0, 6⟩] [1] [2]
      (by decide) (by decide) 3).1).mpr
      ⟨⟨3, 1, 1, 0, 5⟩, by decide, rfl, by decide⟩,
   (claim_C2 1 [⟨3, 1, 1, 0, 5⟩, ⟨7, 2, 2, 0, 6⟩] [1] [2]
      (by decide) (by decide) 3).2⟩

/-- C3: for every ratings table, min_rank and test cohort, the test
set holds per test user exactly `min (min_rank)` of that user's pool
observations (so at most `min_rank`, and all of them when the user has
fewer); every pool observation left out of the test set has a
timestamp at most that of each test observation of the same user
(the test set keeps the most-recent ones) and is sent to the train
set; and the spec's literal example evaluates exactly as stated. -/
theorem claim_C3 :
    (∀ (min_rank : Nat) (ratings : DF) (test_users train_users : List Nat),
      (∀ u, countUser (split_data min_rank ratings test_users train_users).1 u =
          min min_rank (countUser (testPool ratings test_users) u)) ∧
      (∀ r1 ∈ sortDesc (testPool ratings test_users),
        r1.id ∉ ((split_data min_rank ratings test_users train_users).1).map
          (fun t => t.id) →
        (∀ r2 ∈ (split_data min_rank ratings test_users train_users).1,
          r2.user_id = r1.user_id →
            r1.rating_timestamp ≤ r2.rating_timestamp) ∧
        r1 ∈ (split_data min_rank ratings test_users train_users).2)) ∧
    split_data 2 exSplitRatings [1] [] =
      ([⟨2, 1, 3, 0, 3⟩, ⟨1, 1, 2, 0, 2⟩], [⟨0, 1, 1, 0, 1⟩]) := by
  constructor
  · intro min_rank ratings test_users train_users
    constructor
    · intro u
      rw [split_data_test_eq, headPerUser_count, countUser_sortDesc]
    · intro r1 h1 hid
      have hno : r1 ∉ (split_data min_rank ratings test_users train_users).1 := by
        intro hmem
        exact hid (List.mem_map.mpr ⟨r1, hmem, rfl⟩)
      constructor
      · intro r2 h2 huser
        rw [split_data_test_eq] at h2 hno
        exact headPerUser_order (sorted_sortDesc (testPool ratings test_users))
          h1 hno h2 huser
      · obtain ⟨hr, hu⟩ := mem_testPool.mp (mem_sortDesc.mp h1)
        exact mem_split_train.mpr (Or.inr ⟨hr, hu, hid⟩)
  · decide

theorem claim_C3_witness :
    countUser (split_data 2 exSplitRatings [1] []).1 1 = 2 ∧
    (⟨0, 1, 1, 0, 1⟩ : Row) ∈ (split_data 2 exSplitRatings [1] []).2 := by
  constructor
  · rw [(claim_C3.1 2 exSplitRatings [1] []).1 1]
    decide
  · exact ((claim_C3.1 2 exSplitRatings [1] []).2 ⟨0, 1, 1, 0, 1⟩
      (by decide) (by decide)).2

/-- C4 (counterexample): the claim quantifies over every `folds = F > 0`,
but at `F = 1` the cross-validation mode raises (sklearn's `KFold`
rejects `n_splits <= 1` at construction) instead of returning the mean
of the single per-fold value. -/
theorem claim_C4_counterexample :
    calculate_using_ratings pakUserSum maeUserSum ⟨true, exCV3⟩ 0 1 1 =
      .error "ValueError: k-fold cross-validation requires at least one train/test split" := by
  rfl

/-- C4 (amended): for every `folds = F ≥ 2` with at least `F` users
surviving cleaning, the cross-validation mode produces exactly `F`
per-fold metric triples from the ranking and error evaluators, and the
returned map/ar/mae are their exact sums divided by the fold count
once (the in-loop recomputation overwrites, so the returned record is
the final arithmetic mean). -/
theorem claim_C4 (pak : DF → DF → ℚ × ℚ) (maeEval : DF → DF → ℚ)
    (rows : DF) (m mr F : Nat) (hF : 2 ≤ F)
    (hn : F ≤ (uniqueUsers (cleanRows rows m)).length) :
    (cvFoldMetrics pak maeEval (cleanRows rows m)
        (uniqueUsers (cleanRows rows m)) mr
        (kfoldSplits F (uniqueUsers (cleanRows rows m)).length)).length = F ∧
    calculate_using_ratings pak maeEval ⟨true, rows⟩ m mr F =
      .ok ⟨((cvFoldMetrics pak maeEval (cleanRows rows m)
              (uniqueUsers (cleanRows rows m)) mr
              (kfoldSplits F (uniqueUsers (cleanRows rows m)).length)).map
              (fun x => x.1)).sum / (F : ℚ),
           ((cvFoldMetrics pak maeEval (cleanRows rows m)
              (uniqueUsers (cleanRows rows m)) mr
              (kfoldSplits F (uniqueUsers (cleanRows rows m)).length)).map
              (fun x => x.2.1)).sum / (F : ℚ),
           ((cvFoldMetrics pak maeEval (cleanRows rows m)
              (uniqueUsers (cleanRows rows m)) mr
              (kfoldSplits F (uniqueUsers (cleanRows rows m)).length)).map
              (fun x => x.2.2)).sum / (F : ℚ), none⟩ :=
  ⟨by simp [cvFoldMetrics, kfoldSplits_length],
   calculate_using_ratings_mean pak maeEval rows m mr F hF hn⟩

/-- The spec's synthetic check: stub per-fold metric values 1, 2, 3
for `F = 3` yield the mean 2 in every returned field. -/
theorem claim_C4_witness :
    calculate_using_ratings pakUserSum maeUserSum ⟨true, exCV3⟩ 0 1 3 =
      .ok ⟨2, 2, 2, none⟩ := by
  rw [(claim_C4 pakUserSum maeUserSum exCV3 0 1 3 (by decide) (by decide)).2]
  have hms : cvFoldMetrics pakUserSum maeUserSum (cleanRows exCV3 0)
      (uniqueUsers (cleanRows exCV3 0)) 1
      (kfoldSplits 3 (uniqueUsers (cleanRows exCV3 0)).length) =
      [(1, 1, 1), (2, 2, 2), (3, 3, 3)] := by decide
  rw [hms]
  exact congrArg Except.ok (by norm_num [EvalResult.mk.injEq])

/-- C5: the single-pass 70/30 user partition is a pure function of the
cleaned ratings (given the same fixed-seed shuffle, repeated runs
coincide); the train cohort is exactly the first 70% (integer floor)
of the seed-42-shuffled distinct-user list and the test cohort is the
rest; together they are a permutation of the distinct users, and the
train cohort has exactly the 70% length. -/
theorem claim_C5 (shuffle : Nat → List Nat → List Nat) (ratings : DF) (m : Nat)
    (hperm : ∀ s l, (shuffle s l).Perm l) :
    singlePassPartition shuffle (cleanRows ratings m) =
      singlePassPartition shuffle (cleanRows ratings m) ∧
    (singlePassPartition shuffle (cleanRows ratings m)).1 =
      (shuffle 42 (uniqueUsers (cleanRows ratings m))).take
        ((uniqueUsers (cleanRows ratings m)).length * 70 / 100) ∧
    (singlePassPartition shuffle (cleanRows ratings m)).2 =
      (shuffle 42 (uniqueUsers (cleanRows ratings m))).drop
        ((uniqueUsers (cleanRows ratings m)).length * 70 / 100) ∧
    ((singlePassPartition shuffle (cleanRows ratings m)).1 ++
        (singlePassPartition shuffle (cleanRows ratings m)).2).Perm
      (uniqueUsers (cleanRows ratings m)) ∧
    (singlePassPartition shuffle (cleanRows ratings m)).1.length =
      (uniqueUsers (cleanRows ratings m)).length * 70 / 100 := by
  refine ⟨rfl, rfl, rfl, ?_, ?_⟩
  · rw [singlePassPartition]
    dsimp only
    rw [List.take_append_drop]
    exact hperm 42 (uniqueUsers (cleanRows ratings m))
  · rw [singlePassPartition]
    dsimp only
    rw [List.length_take]
    have hlen : (shuffle 42 (uniqueUsers (cleanRows ratings m))).length =
        (uniqueUsers (cleanRows ratings m)).length :=
      (hperm 42 (uniqueUsers (cleanRows ratings m))).length_eq
    rw [hlen]
    have hle : (uniqueUsers (cleanRows ratings m)).length * 70 / 100 ≤
        (uniqueUsers (cleanRows ratings m)).length := by
      apply Nat.div_le_of_le_mul
      omega
    omega

theorem claim_C5_witness :
    ((singlePassPartition (fun _ l => l.reverse) (cleanRows exCV3 0)).1 ++
      (singlePassPartition (fun _ l => l.reverse) (cleanRows exCV3 0)).2).Perm
      (uniqueUsers (cleanRows exCV3 0)) :=
  (claim_C5 (fun _ l => l.reverse) exCV3 0
    (fun _ l => l.reverse_perm)).2.2.2.1

/-- C6: `clean_data` keeps exactly the observations of users whose
total observation count is strictly greater than `min_ratings`, as an
order-preserving sublist (all fields of retained observations
unmodified); a user with exactly `min_ratings` observations is
removed and one with `min_ratings + 1` is retained; on a frame with
columns the full function computes exactly this filter. -/
theorem claim_C6 (rows : DF) (m : Nat) :
    (∀ r, r ∈ cleanRows rows m ↔ r ∈ rows ∧ m < countUser rows r.user_id) ∧
    (cleanRows rows m).Sublist rows ∧
    (∀ u, countUser rows u = m → ∀ r ∈ cleanRows rows m, r.user_id ≠ u) ∧
    (∀ u, countUser rows u = m + 1 → ∀ r ∈ rows, r.user_id = u →
      r ∈ cleanRows rows m) ∧
    clean_data ⟨true, rows⟩ m = .ok ⟨true, cleanRows rows m⟩ := by
  refine ⟨fun r => mem_cleanRows, List.filter_sublist rows, ?_, ?_, clean_data_ok rows m⟩
  · intro u hu r hr hru
    obtain ⟨_, hc⟩ := mem_cleanRows.mp hr
    rw [hru, hu] at hc
    omega
  · intro u hu r hr hru
    refine mem_cleanRows.mpr ⟨hr, ?_⟩
    rw [hru, hu]
    omega

theorem claim_C6_witness :
    (∀ r ∈ cleanRows exThresh 2, r.user_id ≠ 1) ∧
    (⟨2, 2, 1, 0, 3⟩ : Row) ∈ cleanRows exThresh 2 :=
  ⟨(claim_C6 exThresh 2).2.2.1 1 (by decide),
   (claim_C6 exThresh 2).2.2.2.1 2 (by decide) ⟨2, 2, 1, 0, 3⟩
     (by decide) (by decide)⟩

/-- C7: contrary to the claim, `calculate` in single-pass mode *does*
raise on an empty ratings table: `pd.DataFrame.from_records` of zero
records has no columns, so `clean_data`'s column selection fails with
a `KeyError` instead of returning a degenerate result.  (When the
input is nonempty and cleaning merely removes every user, the run
does return the degenerate zero/empty record.) -/
theorem claim_C7 :
    calculate pakZero maeZero shuffleId 0 (PDFrame.fromRecords []) 5 10 =
      .error "KeyError" ∧
    calculate pakZero maeZero shuffleId 0
        (PDFrame.fromRecords [⟨0, 1, 1, 0, 1⟩]) 5 10 =
      .ok ⟨0, 0, 0, some 0⟩ := by
  constructor <;> rfl

/-- Shorthand for statements: the `(test_data, train_data)` pair the
single-pass mode computes on already-cleaned rows (test cohort is the
last 30% of the shuffled user list, train cohort the first 70%). -/
def noCVSplit (shuffle : Nat → List Nat → List Nat) (cleaned : DF)
    (mr : Nat) : DF × DF :=
  split_data mr cleaned
    ((shuffle 42 (uniqueUsers cleaned)).drop
      ((uniqueUsers cleaned).length * 70 / 100))
    ((shuffle 42 (uniqueUsers cleaned)).take
      ((uniqueUsers cleaned).length * 70 / 100))

/-- C8: in single-pass mode (`folds == 0`), on a ratings frame that
carries its columns and with any length-preserving shuffle, `calculate`
returns the record whose map/ar come from the ranking evaluator on the
split's (train, test) data, whose mae is the constant 0 (not
computed), and whose users field is the number of distinct users
remaining after cleaning. -/
theorem claim_C8 (pak : DF → DF → ℚ × ℚ)
    (shuffle : Nat → List Nat → List Nat) (rows : DF) (m mr : Nat)
    (hsh : ∀ s l, (shuffle s l).length = l.length) :
    calculate pak maeZero shuffle 0 ⟨true, rows⟩ m mr =
      .ok ⟨(pak (noCVSplit shuffle (cleanRows rows m) mr).2
              (noCVSplit shuffle (cleanRows rows m) mr).1).1,
           (pak (noCVSplit shuffle (cleanRows rows m) mr).2
              (noCVSplit shuffle (cleanRows rows m) mr).1).2,
           0, some (uniqueUsers (cleanRows rows m)).length⟩ := by
  rw [calculate, if_pos rfl, calculate_using_ratings_no_crossvalidation,
    clean_data_ok, ebind_ok]
  dsimp only
  rw [hsh 42 (uniqueUsers (cleanRows rows m))]
  rfl

theorem claim_C8_witness :
    calculate pakZero maeZero (fun _ l => l.reverse) 0 ⟨true, exCV3⟩ 0 1 =
      .ok ⟨0, 0, 0, some 3⟩ := by
  rw [claim_C8 pakZero (fun _ l => l.reverse) exCV3 0 1
    (fun _ l => l.length_reverse)]
  rfl

/-- C9: contrary to the claim, the Runner performs no eager parameter
validation: with the nonsensical configuration `min_rank = 0` (in
single-pass mode, on a nonempty table with two surviving users),
`calculate` returns a normal record instead of failing with a
configuration error, and the split it works with has an empty test
set. -/
theorem claim_C9 :
    calculate pakZero maeZero shuffleId 0 ⟨true, exTwoUsers⟩ 1 0 =
      .ok ⟨0, 0, 0, some 2⟩ ∧
    (split_data 0 (cleanRows exTwoUsers 1) [2] [1]).1 = [] := by
  constructor <;> rfl

/-- C10: `clean_data` is idempotent: at the observation level a second
`cleanRows` pass with the same `min_ratings` changes nothing, and the
full column-aware function composed with itself (through the `Except`
result) equals a single application. -/
theorem claim_C10 :
    (∀ (rows : DF) (m : Nat),
      cleanRows (cleanRows rows m) m = cleanRows rows m) ∧
    (∀ (df : PDFrame) (m : Nat),
      (clean_data df m).bind (fun d => clean_data d m) = clean_data df m) := by
  refine ⟨cleanRows_idem, ?_⟩
  rintro ⟨hasCols, rows⟩ m
  cases hasCols with
  | false => rfl
  | true =>
    rw [clean_data_ok]
    show clean_data ⟨true, cleanRows rows m⟩ m = _
    rw [clean_data_ok, cleanRows_idem]

end MovieSite
